import Mathlib

/-!
Verification development for the title-interpretation and match-resolution
engine of `yt_to_spotify` (`src/main.py`).

The Python functions `clean_title`, `handle_special_cases`,
`extract_artist_track`, `build_spotify_query`, `match_to_spotify` and the
URI/URL conversions of `match_to_spotify` / `read_spotify_tracks_from_csv`
are embedded shallowly.  Strings are modelled as `String` / `List Char`;
the regular-expression operations of the source are modelled by executable
scanning functions with the exact leftmost / lazy / greedy semantics of the
Python `re` module on the patterns in question (each model is documented at
its definition).  Python whitespace `\s` is modelled over its ASCII range,
and `str.lower` by ASCII lowercasing, which agree with Python on all inputs
considered here.
-/

/-- Python `\s` (ASCII range): space, tab, newline, carriage return,
vertical tab, form feed. -/
def isWs (c : Char) : Bool :=
  c == ' ' || c == '\t' || c == '\n' || c == '\r' || c == '\x0b' || c == '\x0c'

/-- Characters stripped by `strip(' -:|~')` in `clean_title`. -/
def isSep (c : Char) : Bool :=
  c == ' ' || c == '-' || c == ':' || c == '|' || c == '~'

/-- The quote characters removed by `re.sub(r"[\"']", "", title)`. -/
def isQuote (c : Char) : Bool :=
  c == '"' || c == '\''

/-- Opening bracket class `[\(\[]` of the bracket-removal regex. -/
def isOpenBr (c : Char) : Bool :=
  c == '(' || c == '['

/-- Closing bracket class `[\)\]]` of the bracket-removal regex. -/
def isCloseBr (c : Char) : Bool :=
  c == ')' || c == ']'

/-- ASCII lowercasing, modelling Python `str.lower()` on the inputs used. -/
def lowerL (l : List Char) : List Char :=
  l.map Char.toLower

/-- Python `strip()` on a character list: drop whitespace at both ends. -/
def trimWs (l : List Char) : List Char :=
  (l.dropWhile isWs).rdropWhile isWs

/-- Python `strip(' -:|~')` on a character list. -/
def stripSep (l : List Char) : List Char :=
  (l.dropWhile isSep).rdropWhile isSep

/-- Python substring test `needle in hay` (for `needle` a fixed literal). -/
def containsSub (needle : List Char) : List Char → Bool
  | [] => needle.isEmpty
  | c :: t => needle.isPrefixOf (c :: t) || containsSub needle t

/-- Python `s.split(sep)[0]` for a one-character separator: the text before
the first occurrence of `sep` (the whole string when `sep` is absent). -/
def beforeFirst (sep : Char) (l : List Char) : List Char :=
  l.takeWhile (fun c => c != sep)

/-- Python `s.split(sep)[-1]` for a one-character separator: the text after
the last occurrence of `sep` (the whole string when `sep` is absent). -/
def afterLast (sep : Char) (l : List Char) : List Char :=
  (l.reverse.takeWhile (fun c => c != sep)).reverse

/-!  ## `handle_special_cases` (src/main.py lines 187-213)

Rule 3 uses `re.search(r'\((.*?)\s*cover\)', title, re.IGNORECASE)` for the
artist and `re.sub(r'\s*\(.*?cover\)', '', title)` (NO `re.IGNORECASE`
flag) for the track.  Both are modelled exactly, including the missing
flag on the substitution.  -/

/-- Does `l` begin with `\s*cover\)` case-insensitively?  (`\s*` is greedy
but is followed by the literal `c`, so only the maximal whitespace run can
precede a successful literal match.) -/
def coverTail (l : List Char) : Bool :=
  let r := l.dropWhile isWs
  lowerL (r.take 5) == "cover".data && (r.drop 5).take 1 == [')']

/-- Lazy capture scan for `\((.*?)\s*cover\)` after an opening parenthesis:
grow the group minimally (never across `\n`, since `.` does not match a
newline) until `\s*cover\)` (case-insensitive) follows; `acc` holds the
reversed group read so far.  Returns the captured group. -/
def coverGroupAux (acc : List Char) : List Char → Option (List Char)
  | [] => if coverTail [] then some acc.reverse else none
  | c :: t =>
    if coverTail (c :: t) then some acc.reverse
    else if c == '\n' then none
    else coverGroupAux (c :: acc) t

/-- Model of `re.search(r'\((.*?)\s*cover\)', title, re.IGNORECASE)`: leftmost
position whose `\(` begins a full match; returns capture group 1. -/
def coverSearch : List Char → Option (List Char)
  | [] => none
  | c :: t =>
    if c == '(' then
      match coverGroupAux [] t with
      | some g => some g
      | none => coverSearch t
    else coverSearch t

/-- After a matched `\s*\(` of `re.sub(r'\s*\(.*?cover\)', '', title)`:
lazily scan (never across `\n`) for the literal, case-SENSITIVE `cover)`;
returns the remainder after the match. -/
def coverSubTail : List Char → Option (List Char)
  | [] => if "cover)".data.isPrefixOf ([] : List Char) then some [] else none
  | c :: t =>
    if "cover)".data.isPrefixOf (c :: t) then some ((c :: t).drop 6)
    else if c == '\n' then none
    else coverSubTail t

/-- Try to match `\s*\(.*?cover\)` (case-sensitive) at this position:
greedy `\s*` must be the maximal whitespace run (a shorter run would leave
a whitespace character where `\(` is required).  Returns the remainder
after the whole match. -/
def coverSubHere (l : List Char) : Option (List Char) :=
  match l.dropWhile isWs with
  | '(' :: r => coverSubTail r
  | _ => none

/-- Model of `re.sub(r'\s*\(.*?cover\)', '', title)` (case-sensitive, global):
remove every non-overlapping leftmost match.  Fuelled structural recursion
(fuel ≥ length suffices; each step consumes at least one character). -/
def coverSubF : Nat → List Char → List Char
  | 0, l => l
  | _ + 1, [] => []
  | f + 1, c :: t =>
    match coverSubHere (c :: t) with
    | some rest => coverSubF f rest
    | none => c :: coverSubF f t

/-- The track rewrite of special-case rule 3:
`re.sub(r'\s*\(.*?cover\)', '', title)`. -/
def coverSub (l : List Char) : List Char :=
  coverSubF (l.length + 1) l

/-- Embedding of `handle_special_cases` (src/main.py lines 187-213).  Returns the pair
`(artist_override, track_override)`, each `None`-able, following the three
rules in order.  Rule 1 and rule 2 return `(None, prefix-before-char,
stripped)`; rule 3 returns the cover artist (case-insensitive search) and
the title rewritten by the case-sensitive substitution. -/
def handle_special_cases (title : String) : Option String × Option String :=
  let lt := lowerL title.data
  if containsSub "math rock".data lt || containsSub "midwest emo".data lt ||
      containsSub "mix".data lt || containsSub "playlist".data lt then
    (none, some (String.mk (trimWs (beforeFirst '|' title.data))))
  else if containsSub "full album".data lt || containsSub "full ep".data lt ||
      containsSub "[full]".data lt then
    (none, some (String.mk (trimWs (beforeFirst '[' title.data))))
  else
    match coverSearch title.data with
    | some g => (some (String.mk g), some (String.mk (coverSub title.data)))
    | none => (none, none)

/-!  ## `extract_artist_track` (src/main.py lines 216-268)

Line 218 reads `artist, track = handle_special_casese(title)`: the name
`handle_special_casese` is defined nowhere in the module (the function
defined at line 187 is `handle_special_cases`), so every call of
`extract_artist_track` raises `NameError` at its first statement.  All
code after line 218 (normalisation and the pattern cascade) is
unreachable.  -/

/-- Python exceptions observable in the modelled fragment. -/
inductive PyErr where
  | nameError : String → PyErr
  | zeroDivisionError : PyErr
deriving DecidableEq

/-- Python `str(e)` for the modelled exceptions. -/
def pyErrStr : PyErr → String
  | .nameError n => "name '" ++ n ++ "' is not defined"
  | .zeroDivisionError => "division by zero"

/-- Embedding of `extract_artist_track` (src/main.py lines 216-268).  Its first
statement (line 218) calls the undefined name `handle_special_casese`,
so the function unconditionally raises `NameError`; the rest of its body
is dead code. -/
def extract_artist_track (_title : String) :
    Except PyErr (Option String × Option String) :=
  Except.error (PyErr.nameError "handle_special_casese")

/-!  ## `build_spotify_query` (src/main.py lines 271-289)  -/

/-- Does `l` (an entire artist suffix) match one alternative of
`(\s*-\s*topic|\s*vevo|\s*official)$` case-insensitively?  The `$` anchor
means the alternative must consume the whole suffix. -/
def isBrandAlt (l : List Char) : Bool :=
  (match l.dropWhile isWs with
   | '-' :: r => lowerL (r.dropWhile isWs) == "topic".data
   | _ => false) ||
  lowerL (l.dropWhile isWs) == "vevo".data ||
  lowerL (l.dropWhile isWs) == "official".data

/-- Model of `re.sub(r'(\s*-\s*topic|\s*vevo|\s*official)$', '', artist,
flags=re.IGNORECASE)`: remove the suffix starting at the leftmost position
from which an alternative matches through to the end (at most one match,
because of the `$` anchor). -/
def stripArtistBrand : List Char → List Char
  | [] => []
  | c :: t => if isBrandAlt (c :: t) then [] else c :: stripArtistBrand t

/-- Embedding of `build_spotify_query` (src/main.py lines 271-289).  Mirrors the Python
return types: the no-artist / various-artists branch returns the bare
STRING `track:<track>` (line 277), the other branch a LIST of three query
strings (lines 283-289).  `none` and `some ""` both take the first branch
(Python `not artist`). -/
def build_spotify_query (artist : Option String) (track : String) :
    Sum String (List String) :=
  match artist with
  | none => Sum.inl ("track:" ++ track)
  | some a =>
    if a = "" || String.mk (lowerL a.data) = "various artists" then
      Sum.inl ("track:" ++ track)
    else
      let artist_clean := String.mk (stripArtistBrand a.data)
      Sum.inr ["artist:" ++ artist_clean ++ " track:" ++ track,
               artist_clean ++ " " ++ track,
               track]

/-- Python `for query in queries:` iteration as performed by
`match_to_spotify` (line 310) on the value returned by
`build_spotify_query`: iterating a string yields its characters as
one-character strings; iterating a list yields its elements. -/
def queriesIter : Sum String (List String) → List String
  | Sum.inl s => s.data.map (fun c => String.mk [c])
  | Sum.inr l => l

/-!  ## URI/URL conversions (src/main.py lines 336 and 445-447)  -/

/-- The URI to URL conversion of `match_to_spotify` line 336: the track
URL prefix followed by the text after the last colon of the URI
(Python split on colon, last element, in an f-string). -/
def uri_to_url (uri : String) : String :=
  "https://open.spotify.com/track/" ++ String.mk (afterLast ':' uri.data)

/-- The URL → URI conversion of `read_spotify_tracks_from_csv` lines
445-447: rows whose `spotify_url` starts with the track-URL prefix yield
`"spotify:track:" + url.split("/")[-1]`; other rows are skipped (`none`). -/
def url_to_uri (url : String) : Option String :=
  if "https://open.spotify.com/track/".data.isPrefixOf url.data then
    some ("spotify:track:" ++ String.mk (afterLast '/' url.data))
  else none

/-!  ## `clean_title` (src/main.py lines 145-184)

The eight textual stages, in source order:
1. (line 158) `re.sub(r'(?i)\s*(official\s*(video|audio|lyric video|music
   video)?|lyrics?|hd|4k|mv|visualizer)\s*$', '', title)` — because of the
   `$` anchor this removes the suffix starting at the leftmost position
   from which `\s* ALT \s*` reaches the end, or nothing;
2. (line 165) `re.sub(r'(?i)\s*-\s*(vevo|topic)\s*$', '', title)` — same
   shape for the channel-brand suffix;
3. (line 168) remove `["']`;
4. (line 169) collapse each `\s+` run to one space, then `strip()`;
5. (line 170) `re.sub(r"[\(\[].*?[\)\]]", "", title)` — remove every
   non-overlapping leftmost-lazy bracketed span (the lazy `.*?` cannot
   cross a newline);
6. (lines 173-174) collapse `\s+`, `strip()`, then `strip(' -:|~')`;
7. (lines 177-178) remove, anywhere, the first-matching alternative of
   `official video|official audio|lyric video|lyrics|hd|4k|topic|
   visualizer|music video|official music video|mv` (case-insensitive,
   alternatives tried left to right at each position);
8. (lines 181-184) `strip(" -:|~")`, collapse whitespace runs of length at
   least two to one space,
   final `strip()`.  -/

/-- Is `l` (lowercased, whitespace-trimmed) one of the stage-1 promotional
alternatives `official\s*(video|audio|lyric video|music video)?`,
`lyrics?`, `hd`, `4k`, `mv`, `visualizer`? -/
def promoCore (l : List Char) : Bool :=
  l == "lyric".data || l == "lyrics".data || l == "hd".data ||
  l == "4k".data || l == "mv".data || l == "visualizer".data ||
  (l.take 8 == "official".data &&
    (l.drop 8 == [] ||
     ((l.drop 8).dropWhile isWs == "video".data ||
      (l.drop 8).dropWhile isWs == "audio".data ||
      (l.drop 8).dropWhile isWs == "lyric video".data ||
      (l.drop 8).dropWhile isWs == "music video".data)))

/-- Does the whole of `l` lie in `\s* promo-alternative \s*`? -/
def promoSuffix (l : List Char) : Bool :=
  promoCore (lowerL (trimWs l))

/-- Stage 1: remove the suffix starting at the leftmost position whose
remainder matches `\s*(...)\s*$`. -/
def dropPromoSuffix : List Char → List Char
  | [] => []
  | c :: t => if promoSuffix (c :: t) then [] else c :: dropPromoSuffix t

/-- Does the whole of `l` lie in `\s*-\s*(vevo|topic)\s*`? -/
def brandSuffix (l : List Char) : Bool :=
  match trimWs l with
  | '-' :: r =>
    lowerL (r.dropWhile isWs) == "vevo".data ||
    lowerL (r.dropWhile isWs) == "topic".data
  | _ => false

/-- Stage 2: remove the suffix starting at the leftmost position whose
remainder matches `\s*-\s*(vevo|topic)\s*$`. -/
def dropBrandSuffix : List Char → List Char
  | [] => []
  | c :: t => if brandSuffix (c :: t) then [] else c :: dropBrandSuffix t

/-- Model of `re.sub(r"\s+", " ", ·)`: replace each maximal whitespace run by a
single space.  The flag records whether the current position is inside a
run whose replacement space has already been emitted. -/
def collapseWsAux : Bool → List Char → List Char
  | _, [] => []
  | inRun, c :: t =>
    if isWs c then
      if inRun then collapseWsAux true t
      else ' ' :: collapseWsAux true t
    else c :: collapseWsAux false t

/-- Stages 4/6 collapse: `re.sub(r"\s+", " ", ·)`. -/
def collapseWs (l : List Char) : List Char :=
  collapseWsAux false l

/-- Scan for the first closing bracket reachable by the lazy `.*?` of
`[\(\[].*?[\)\]]` (which cannot cross `\n`): the remainder after that
bracket, or `none` when a newline or the end intervenes. -/
def afterClose : List Char → Option (List Char)
  | [] => none
  | c :: t =>
    if isCloseBr c then some t
    else if c == '\n' then none
    else afterClose t

/-- Stage 5: `re.sub(r"[\(\[].*?[\)\]]", "", ·)`, removing every
non-overlapping leftmost-lazy bracketed span (fuelled; fuel ≥ length
suffices). -/
def removeBracketsF : Nat → List Char → List Char
  | 0, l => l
  | _ + 1, [] => []
  | f + 1, c :: t =>
    if isOpenBr c then
      match afterClose t with
      | some rest => removeBracketsF f rest
      | none => c :: removeBracketsF f t
    else c :: removeBracketsF f t

/-- Stage 5 at its natural fuel. -/
def removeBrackets (l : List Char) : List Char :=
  removeBracketsF (l.length + 1) l

/-- The stage-7 keyword alternation, in source order (`unwanted` list,
line 152, joined by `|` at line 177): at a given position the FIRST
alternative that matches is removed (Python alternation is ordered). -/
def kwList : List (List Char) :=
  ["official video".data, "official audio".data, "lyric video".data,
   "lyrics".data, "hd".data, "4k".data, "topic".data, "visualizer".data,
   "music video".data, "official music video".data, "mv".data]

/-- Length of the first keyword of `kwList` that is a case-insensitive
prefix of `l`, if any. -/
def matchKw (l : List Char) : Option Nat :=
  (kwList.find? (fun kw => kw.isPrefixOf (lowerL (l.take kw.length)))).map
    List.length

/-- Stage 7: `pattern.sub("", ·)` for the keyword alternation
(case-insensitive, global, single pass, no rescanning of earlier output).
Fuelled; fuel ≥ length suffices. -/
def removeKeywordsF : Nat → List Char → List Char
  | 0, l => l
  | _ + 1, [] => []
  | f + 1, c :: t =>
    match matchKw (c :: t) with
    | some n => removeKeywordsF f ((c :: t).drop n)
    | none => c :: removeKeywordsF f t

/-- Stage 7 at its natural fuel. -/
def removeKeywords (l : List Char) : List Char :=
  removeKeywordsF (l.length + 1) l

/-- Stage 8 collapse: `re.sub` with pattern backslash-s-repeated-at-least-twice — only runs of length at
least two are replaced; a single whitespace character (even a tab) is kept
as it is.  Fuelled; fuel ≥ length suffices. -/
def collapseWs2F : Nat → List Char → List Char
  | 0, l => l
  | _ + 1, [] => []
  | _ + 1, [a] => [a]
  | f + 1, a :: b :: t =>
    if isWs a && isWs b then ' ' :: collapseWs2F f ((b :: t).dropWhile isWs)
    else a :: collapseWs2F f (b :: t)

/-- Stage 8 collapse at its natural fuel. -/
def collapseWs2 (l : List Char) : List Char :=
  collapseWs2F (l.length + 1) l

/-- Embedding of `clean_title` (src/main.py lines 145-184) on a character list. -/
def cleanTitleL (l : List Char) : List Char :=
  let t1 := dropPromoSuffix l
  let t2 := dropBrandSuffix t1
  let t3 := t2.filter (fun c => !isQuote c)
  let t4 := trimWs (collapseWs t3)
  let t5 := removeBrackets t4
  let t6 := stripSep (trimWs (collapseWs t5))
  let t7 := removeKeywords t6
  trimWs (collapseWs2 (stripSep t7))

/-- Embedding of `clean_title` (src/main.py lines 145-184). -/
def clean_title (s : String) : String :=
  String.mk (cleanTitleL s.data)

/-!  ## `match_to_spotify` (src/main.py lines 293-362)

Per item (inside `try`): read the title, call `extract_artist_track`
(which always raises `NameError`, see above), build the query candidates,
iterate them calling `sp_client.search` (modelled by `searchFn : String →
List String`, a query to the list of result URIs, top-5), break at the
first non-empty result, then append a result row.  The `except` branch
appends a row with `spotify_uri=None`, a `match_status` carrying the warning sign and the exception text
and `query_used = query if 'query' in locals() else "N/A"`; the local
`query` persists across loop iterations, which the state `queryLocal`
models.  After the loop the summary line 354 computes
`matched / len(video_data)` and therefore raises `ZeroDivisionError`
whenever the input batch is empty.  `time.sleep` and all printing are
modelled as no-ops.  -/

/-- One source item, as assembled by `get_youtube_playlist_items`. -/
structure VideoItem where
  title : String
  video_id : String
  url : String
  channel : String
  position : Nat
deriving DecidableEq

/-- One row appended to `results` by `match_to_spotify`. -/
structure MatchRow where
  item : VideoItem
  spotify_uri : Option String
  spotify_url : Option String
  match_status : String
  query_used : String
deriving DecidableEq

/-- The query loop of lines 310-318: try each query in order, breaking at
the first whose result list is non-empty.  Returns the final values of the
Python locals `query` and `result` (the last query tried and its result). -/
def runQueries (searchFn : String → List String) :
    List String → Option String → Option (List String) →
    Option String × Option (List String)
  | [], q, r => (q, r)
  | qy :: rest, _, _ =>
    let res := searchFn qy
    if res.isEmpty then runQueries searchFn rest (some qy) (some res)
    else (some qy, some res)

/-- The `try` body of lines 303-339 for one item.  On success, the row to
append, whether the item counted as matched, and the final value of the
local `query`.  The only raising operation reached is
`extract_artist_track` (line 305).  In the source, a `None` track would be
rendered by the f-strings of `build_spotify_query` as the text `None`;
that rendering is applied before the call here.  -/
def tryItem (searchFn : String → List String) (it : VideoItem) :
    Except PyErr (MatchRow × Bool × Option String) := do
  let (artist, track) ← extract_artist_track it.title
  let queries := build_spotify_query artist
    (match track with | some s => s | none => "None")
  let (lastQ, lastRes) := runQueries searchFn (queriesIter queries) none none
  let spotify_uri : Option String :=
    match lastRes with
    | some (u :: _) => some u
    | _ => none
  let row : MatchRow :=
    { item := it
      spotify_uri := spotify_uri
      spotify_url := spotify_uri.map uri_to_url
      match_status := if spotify_uri.isSome then "✅" else "❌"
      query_used := lastQ.getD "" }
  pure (row, spotify_uri.isSome, lastQ)

/-- The row appended by the `except` branch (lines 341-350) for item `it`,
exception text `msg`, when the function-level local `query` currently
holds `queryLocal` (`"N/A"` when it was never assigned). -/
def exceptRow (it : VideoItem) (msg : String) (queryLocal : Option String) :
    MatchRow :=
  { item := it
    spotify_uri := none
    spotify_url := none
    match_status := "⚠️ (" ++ msg ++ ")"
    query_used := queryLocal.getD "N/A" }

/-- One iteration of the `for` loop of line 302 on the accumulated state
(rows so far, matched count, current value of the local `query`). -/
def mtsStep (searchFn : String → List String)
    (st : List MatchRow × Nat × Option String) (it : VideoItem) :
    List MatchRow × Nat × Option String :=
  match tryItem searchFn it with
  | Except.ok (row, found, lastQ) =>
    (st.1 ++ [row], st.2.1 + (if found then 1 else 0), lastQ)
  | Except.error e =>
    (st.1 ++ [exceptRow it (pyErrStr e) st.2.2], st.2.1, st.2.2)

/-- Embedding of `match_to_spotify` (src/main.py lines 293-362).  Returns
`(results, matched)`; raises `ZeroDivisionError` from the summary line 354
when the batch is empty. -/
def match_to_spotify (searchFn : String → List String)
    (video_data : List VideoItem) : Except PyErr (List MatchRow × Nat) :=
  let st := video_data.foldl (mtsStep searchFn) ([], 0, none)
  if video_data.length = 0 then Except.error PyErr.zeroDivisionError
  else Except.ok (st.1, st.2.1)

/-- The row that `match_to_spotify` in fact records for every item: the
`NameError` raised by `extract_artist_track` reaches the `except` branch
before any query is built or searched, so `query` is never assigned and
every row carries the sentinel `"N/A"`. -/
def nameErrorRow (it : VideoItem) : MatchRow :=
  exceptRow it "name 'handle_special_casese' is not defined" none


/-- A concrete source item used by witness theorems. -/
def sampleItem : VideoItem :=
  { title := "A - B", video_id := "v", url := "u", channel := "c",
    position := 1 }

/-!  ## Invariants of `clean_title` output

Used to settle the idempotence claim: `clean_title`'s output always
satisfies the structural invariants below, so on a second pass only the
three removal rules that can re-fire on their own output (the trailing
promotional suffix, the trailing brand suffix, and the anywhere-keyword
removal) can change anything.  -/

/-- Every whitespace character of `l` is a plain space. -/
def allWsSpace (l : List Char) : Prop :=
  ∀ c ∈ l, isWs c = true → c = ' '

/-- No two adjacent whitespace characters. -/
def noAdjWs (l : List Char) : Prop :=
  l.Chain' (fun a b => ¬(isWs a = true ∧ isWs b = true))

/-- No quote characters. -/
def noQuote (l : List Char) : Prop :=
  ∀ c ∈ l, isQuote c = false

/-- No closing brackets at all. -/
def closerFree (l : List Char) : Prop :=
  ∀ c ∈ l, isCloseBr c = false

/-- No opening bracket is followed (anywhere later) by a closing bracket:
the bracket-removal stage leaves such a list unchanged. -/
def ncBr : List Char → Prop
  | [] => True
  | c :: t => if isOpenBr c = true then closerFree t else ncBr t

/-- The head, if any, satisfies `isWs · = false`. -/
def headNotWs (l : List Char) : Prop :=
  ∀ c, l.head? = some c → isWs c = false

/-- The last element, if any, satisfies `isWs · = false`. -/
def lastNotWs (l : List Char) : Prop :=
  ∀ c, l.getLast? = some c → isWs c = false

/-- The head, if any, satisfies `isSep · = false`. -/
def headNotSep (l : List Char) : Prop :=
  ∀ c, l.head? = some c → isSep c = false

/-- The last element, if any, satisfies `isSep · = false`. -/
def lastNotSep (l : List Char) : Prop :=
  ∀ c, l.getLast? = some c → isSep c = false

/-- A member of `getLast?` is a member of the list. -/
theorem getLast?_mem_self {l : List Char} {c : Char}
    (h : l.getLast? = some c) : c ∈ l := by
  induction l with
  | nil => simp at h
  | cons a t ih =>
    cases t with
    | nil => simp_all
    | cons b t' =>
      rw [List.getLast?_cons_cons] at h
      exact List.mem_cons_of_mem a (ih h)

/-- Fact: `dropWhile` is a suffix. -/
theorem dropWhile_isSuffix (p : Char → Bool) (l : List Char) :
    l.dropWhile p <:+ l :=
  ⟨l.takeWhile p, List.takeWhile_append_dropWhile p l⟩

/-- Fact: `rdropWhile` is a prefix (restating the Mathlib lemma under a
scan-friendly name). -/
theorem rdropWhile_isPrefix (p : Char → Bool) (l : List Char) :
    l.rdropWhile p <+: l :=
  List.rdropWhile_prefix p l

/-- A prefix is an infix. -/
theorem isInfix_of_pref {l m : List Char} (h : l <+: m) : l <:+: m :=
  h.isInfix

/-- A suffix is an infix. -/
theorem isInfix_of_suf {l m : List Char} (h : l <:+ m) : l <:+: m :=
  h.isInfix

/-- Fact: `Chain'` restricts to infixes. -/
theorem chain_restrict {R : Char → Char → Prop} {l t : List Char}
    (h : List.Chain' R l) (ht : t <:+: l) : List.Chain' R t :=
  h.infix ht

/-- Fact: `isPrefixOf` is true on prefixes. -/
theorem isPrefixOf_true {l m : List Char} (h : l <+: m) :
    l.isPrefixOf m = true :=
  List.isPrefixOf_iff_prefix.2 h

/-- Fact: `dropWhile` has no greater length. -/
theorem dropWhile_length_le (p : Char → Bool) (l : List Char) :
    (l.dropWhile p).length ≤ l.length :=
  (dropWhile_isSuffix p l).sublist.length_le

/-- The head of `dropWhile p` never satisfies `p`. -/
theorem dropWhile_head_not (p : Char → Bool) :
    ∀ (l : List Char) (c : Char), (l.dropWhile p).head? = some c →
      p c = false := by
  intro l
  induction l with
  | nil => intro c h; simp at h
  | cons a t ih =>
    intro c h
    rw [List.dropWhile_cons] at h
    by_cases ha : p a = true
    · rw [if_pos ha] at h
      exact ih c h
    · rw [if_neg ha] at h
      obtain rfl : a = c := by simpa using h
      simpa using ha

/-- A non-empty prefix has the same head. -/
theorem IsPrefix_head_eq {l m : List Char} (h : l <+: m) (hne : l ≠ []) :
    l.head? = m.head? := by
  obtain ⟨t, rfl⟩ := h
  cases l with
  | nil => exact absurd rfl hne
  | cons a l' => rfl

/-- A non-empty suffix has the same last element. -/
theorem IsSuffix_getLast_eq {l m : List Char} (h : l <:+ m) (hne : l ≠ []) :
    l.getLast? = m.getLast? := by
  obtain ⟨t, rfl⟩ := h
  induction t with
  | nil => rfl
  | cons a t' ih =>
    rw [List.cons_append, List.getLast?_cons]
    rw [ih]
    have hnil : t' ++ l ≠ [] := by
      intro hc
      exact hne (List.append_eq_nil.1 hc).2
    cases ht : t' ++ l with
    | nil => exact absurd ht hnil
    | cons b u => simp [List.getLast?_cons]

/-- The last element of `rdropWhile p` never satisfies `p`. -/
theorem rdropWhile_last_not (p : Char → Bool) (l : List Char) (c : Char)
    (h : (l.rdropWhile p).getLast? = some c) : p c = false := by
  rw [List.rdropWhile, List.getLast?_reverse] at h
  exact dropWhile_head_not p l.reverse c h

/-- Fact: `dropWhile` is the identity when the head does not satisfy `p`. -/
theorem dropWhile_id_of_head {p : Char → Bool} {l : List Char}
    (h : ∀ c, l.head? = some c → p c = false) : l.dropWhile p = l := by
  cases l with
  | nil => rfl
  | cons a t =>
    rw [List.dropWhile_cons, if_neg]
    simp [h a rfl]

/-- Fact: `rdropWhile` is the identity when the last element does not satisfy
`p`. -/
theorem rdropWhile_id_of_last {p : Char → Bool} {l : List Char}
    (h : ∀ c, l.getLast? = some c → p c = false) : l.rdropWhile p = l := by
  rw [List.rdropWhile_eq_self_iff]
  intro hl
  rw [h (l.getLast hl) (List.getLast?_eq_getLast_of_ne_nil hl)]
  simp

/-- Fact: `trimWs` is an infix of its argument. -/
theorem trimWs_isInfix (l : List Char) : trimWs l <:+: l :=
  (isInfix_of_pref (rdropWhile_isPrefix isWs (l.dropWhile isWs))).trans
    (isInfix_of_suf (dropWhile_isSuffix isWs l))

/-- Fact: `stripSep` is an infix of its argument. -/
theorem stripSep_isInfix (l : List Char) : stripSep l <:+: l :=
  (isInfix_of_pref (rdropWhile_isPrefix isSep (l.dropWhile isSep))).trans
    (isInfix_of_suf (dropWhile_isSuffix isSep l))

/-- The head of `trimWs l` is not whitespace. -/
theorem trimWs_head (l : List Char) : headNotWs (trimWs l) := by
  intro c h
  have hne : trimWs l ≠ [] := by
    intro hc
    rw [hc] at h
    cases h
  have heq : (trimWs l).head? = (l.dropWhile isWs).head? :=
    IsPrefix_head_eq (rdropWhile_isPrefix isWs (l.dropWhile isWs)) hne
  rw [heq] at h
  exact dropWhile_head_not isWs l c h

/-- The last element of `trimWs l` is not whitespace. -/
theorem trimWs_last (l : List Char) : lastNotWs (trimWs l) :=
  fun c h => rdropWhile_last_not isWs (l.dropWhile isWs) c h

/-- The head of `stripSep l` is not a separator. -/
theorem stripSep_head (l : List Char) : headNotSep (stripSep l) := by
  intro c h
  have hne : stripSep l ≠ [] := by
    intro hc
    rw [hc] at h
    cases h
  have heq : (stripSep l).head? = (l.dropWhile isSep).head? :=
    IsPrefix_head_eq (rdropWhile_isPrefix isSep (l.dropWhile isSep)) hne
  rw [heq] at h
  exact dropWhile_head_not isSep l c h

/-- The last element of `stripSep l` is not a separator. -/
theorem stripSep_last (l : List Char) : lastNotSep (stripSep l) :=
  fun c h => rdropWhile_last_not isSep (l.dropWhile isSep) c h

/-- Fact: `trimWs` is the identity on a list trimmed at both ends. -/
theorem trimWs_id {l : List Char} (h1 : headNotWs l) (h2 : lastNotWs l) :
    trimWs l = l := by
  rw [trimWs, dropWhile_id_of_head h1, rdropWhile_id_of_last h2]

/-- Fact: `stripSep` is the identity on a list with non-separator ends. -/
theorem stripSep_id {l : List Char} (h1 : headNotSep l)
    (h2 : lastNotSep l) : stripSep l = l := by
  rw [stripSep, dropWhile_id_of_head h1, rdropWhile_id_of_last h2]

/-- Characters of `collapseWsAux` come from the input or are spaces. -/
theorem collapseWsAux_mem {c : Char} :
    ∀ (b : Bool) (l : List Char), c ∈ collapseWsAux b l → c ∈ l ∨ c = ' ' := by
  intro b l
  induction l generalizing b with
  | nil => intro h; cases h
  | cons a t ih =>
    intro h
    rw [collapseWsAux] at h
    by_cases ha : isWs a = true
    · rw [if_pos ha] at h
      by_cases hb : b = true
      · subst hb
        rw [if_pos rfl] at h
        rcases ih true h with h' | h'
        · exact Or.inl (List.mem_cons_of_mem a h')
        · exact Or.inr h'
      · rw [eq_false_of_ne_true hb, if_neg (by simp)] at h
        rcases List.mem_cons.1 h with h' | h'
        · exact Or.inr h'
        · rcases ih true h' with h'' | h''
          · exact Or.inl (List.mem_cons_of_mem a h'')
          · exact Or.inr h''
    · rw [if_neg ha] at h
      rcases List.mem_cons.1 h with h' | h'
      · exact Or.inl (h' ▸ List.mem_cons_self a t)
      · rcases ih false h' with h'' | h''
        · exact Or.inl (List.mem_cons_of_mem a h'')
        · exact Or.inr h''

/-- Fact: `collapseWsAux` output has only plain spaces as whitespace. -/
theorem collapseWsAux_allWs (b : Bool) (l : List Char) :
    allWsSpace (collapseWsAux b l) := by
  induction l generalizing b with
  | nil => intro c hc; cases hc
  | cons a t ih =>
    intro c hc hwc
    rw [collapseWsAux] at hc
    by_cases ha : isWs a = true
    · rw [if_pos ha] at hc
      by_cases hb : b = true
      · subst hb
        rw [if_pos rfl] at hc
        exact ih true c hc hwc
      · rw [eq_false_of_ne_true hb, if_neg (by simp)] at hc
        rcases List.mem_cons.1 hc with h' | h'
        · exact h'
        · exact ih true c h' hwc
    · rw [if_neg ha] at hc
      rcases List.mem_cons.1 hc with h' | h'
      · subst h'
        exact absurd hwc (by simp [ha])
      · exact ih false c h' hwc

/-- The head of `collapseWsAux true l` (inside a run whose space has been
emitted) is never whitespace. -/
theorem collapseWsAux_true_head :
    ∀ (l : List Char) (c : Char), (collapseWsAux true l).head? = some c →
      isWs c = false := by
  intro l
  induction l with
  | nil => intro c h; cases h
  | cons a t ih =>
    intro c h
    rw [collapseWsAux] at h
    by_cases ha : isWs a = true
    · rw [if_pos ha, if_pos rfl] at h
      exact ih c h
    · rw [if_neg ha] at h
      obtain rfl : a = c := by simpa using h
      simpa using ha

/-- Fact: `collapseWsAux` output has no two adjacent whitespace characters. -/
theorem collapseWsAux_chain (b : Bool) (l : List Char) :
    noAdjWs (collapseWsAux b l) := by
  induction l generalizing b with
  | nil => exact List.chain'_nil
  | cons a t ih =>
    rw [noAdjWs, collapseWsAux]
    by_cases ha : isWs a = true
    · rw [if_pos ha]
      by_cases hb : b = true
      · subst hb
        rw [if_pos rfl]
        exact ih true
      · rw [eq_false_of_ne_true hb, if_neg (by simp)]
        rw [List.chain'_cons']
        refine ⟨?_, ih true⟩
        intro y hy
        intro hcon
        have := collapseWsAux_true_head t y hy
        rw [this] at hcon
        exact absurd hcon.2 (by simp)
    · rw [if_neg ha]
      rw [List.chain'_cons']
      refine ⟨?_, ih false⟩
      intro y _ hcon
      exact absurd hcon.1 (by simp [ha])

/-- Fact: `afterClose` returns a suffix. -/
theorem afterClose_isSuffix :
    ∀ (l r : List Char), afterClose l = some r → r <:+ l := by
  intro l
  induction l with
  | nil => intro r h; cases h
  | cons a t ih =>
    intro r h
    rw [afterClose] at h
    by_cases hc : isCloseBr a = true
    · rw [if_pos hc] at h
      obtain rfl : t = r := by simpa using h
      exact ⟨[a], rfl⟩
    · rw [if_neg hc] at h
      by_cases hn : a == '\n'
      · rw [if_pos hn] at h
        cases h
      · rw [if_neg hn] at h
        exact (ih r h).trans ⟨[a], rfl⟩

/-- A closer-free list makes `afterClose` return `none`. -/
theorem closerFree_afterClose {l : List Char} (h : closerFree l) :
    afterClose l = none := by
  induction l with
  | nil => rfl
  | cons a t ih =>
    rw [afterClose, if_neg (by simp [h a (List.mem_cons_self a t)])]
    by_cases hn : a == '\n'
    · rw [if_pos hn]
    · rw [if_neg hn]
      exact ih (fun c hc => h c (List.mem_cons_of_mem a hc))

/-- On a newline-free list, `afterClose = none` means closer-free. -/
theorem afterClose_none_closerFree :
    ∀ {l : List Char}, (∀ c ∈ l, c ≠ '\n') → afterClose l = none →
      closerFree l := by
  intro l
  induction l with
  | nil => intro _ _ c hc; cases hc
  | cons a t ih =>
    intro hnl h c hc
    rw [afterClose] at h
    by_cases hcl : isCloseBr a = true
    · rw [if_pos hcl] at h
      cases h
    · rw [if_neg hcl] at h
      have hn : ¬(a == '\n') := by
        simpa using hnl a (List.mem_cons_self a t)
      rw [if_neg hn] at h
      rcases List.mem_cons.1 hc with h' | h'
      · subst h'
        simpa using hcl
      · exact ih (fun d hd => hnl d (List.mem_cons_of_mem a hd)) h c h'

/-- Characters of `removeBracketsF` come from the input. -/
theorem removeBracketsF_mem {c : Char} :
    ∀ (f : Nat) (l : List Char), c ∈ removeBracketsF f l → c ∈ l := by
  intro f
  induction f with
  | zero => intro l h; exact h
  | succ f ih =>
    intro l h
    cases l with
    | nil => cases h
    | cons a t =>
      rw [removeBracketsF] at h
      by_cases ho : isOpenBr a = true
      · rw [if_pos ho] at h
        cases hac : afterClose t with
        | some r =>
          rw [hac] at h
          exact List.mem_cons_of_mem a
            ((afterClose_isSuffix t r hac).sublist.subset (ih r h))
        | none =>
          rw [hac] at h
          rcases List.mem_cons.1 h with h' | h'
          · exact h' ▸ List.mem_cons_self a t
          · exact List.mem_cons_of_mem a (ih t h')
      · rw [if_neg ho] at h
        rcases List.mem_cons.1 h with h' | h'
        · exact h' ▸ List.mem_cons_self a t
        · exact List.mem_cons_of_mem a (ih t h')

/-- A closer-free list satisfies `ncBr`. -/
theorem closerFree_ncBr : ∀ {l : List Char}, closerFree l → ncBr l := by
  intro l
  induction l with
  | nil => intro _; trivial
  | cons a t ih =>
    intro h
    rw [ncBr]
    by_cases ho : isOpenBr a = true
    · rw [if_pos ho]
      exact fun c hc => h c (List.mem_cons_of_mem a hc)
    · rw [if_neg ho]
      exact ih (fun c hc => h c (List.mem_cons_of_mem a hc))

/-- Fact: `ncBr` of a tail. -/
theorem ncBr_tail {a : Char} {t : List Char} (h : ncBr (a :: t)) :
    ncBr t := by
  rw [ncBr] at h
  by_cases ho : isOpenBr a = true
  · rw [if_pos ho] at h
    exact closerFree_ncBr h
  · rwa [if_neg ho] at h

/-- Fact: `ncBr` is closed under sublists. -/
theorem ncBr_sublist :
    ∀ {l' l : List Char}, List.Sublist l' l → ncBr l → ncBr l' := by
  intro l' l hsub
  induction hsub with
  | slnil => intro _; trivial
  | cons a hs ih => exact fun h => ih (ncBr_tail h)
  | cons₂ a hs ih =>
    intro h
    rw [ncBr] at h ⊢
    by_cases ho : isOpenBr a = true
    · rw [if_pos ho] at h ⊢
      exact fun c hc => h c (hs.subset hc)
    · rw [if_neg ho] at h ⊢
      exact ih h

/-- Fact: `removeBracketsF` output on newline-free input satisfies `ncBr`. -/
theorem removeBracketsF_ncBr :
    ∀ (f : Nat) (l : List Char), (∀ c ∈ l, c ≠ '\n') → l.length ≤ f →
      ncBr (removeBracketsF f l) := by
  intro f
  induction f with
  | zero =>
    intro l _ hlen
    have : l = [] := List.length_eq_zero.1 (Nat.le_zero.1 hlen)
    subst this
    trivial
  | succ f ih =>
    intro l hnl hlen
    cases l with
    | nil => trivial
    | cons a t =>
      rw [removeBracketsF]
      have hnlt : ∀ c ∈ t, c ≠ '\n' :=
        fun c hc => hnl c (List.mem_cons_of_mem a hc)
      have hlent : t.length ≤ f := by
        simpa [Nat.succ_le_succ_iff] using hlen
      by_cases ho : isOpenBr a = true
      · rw [if_pos ho]
        cases hac : afterClose t with
        | some r =>
          have hsuf := afterClose_isSuffix t r hac
          exact ih r (fun c hc => hnlt c (hsuf.sublist.subset hc))
            (le_trans hsuf.sublist.length_le hlent)
        | none =>
          rw [ncBr, if_pos ho]
          have hcf : closerFree t := afterClose_none_closerFree hnlt hac
          exact fun c hc => hcf c (removeBracketsF_mem f t hc)
      · rw [if_neg ho, ncBr, if_neg ho]
        exact ih t hnlt hlent

/-- Fact: `removeBracketsF` is the identity on `ncBr` lists (any fuel). -/
theorem removeBracketsF_id :
    ∀ (f : Nat) (l : List Char), ncBr l → removeBracketsF f l = l := by
  intro f
  induction f with
  | zero => intro l _; rfl
  | succ f ih =>
    intro l h
    cases l with
    | nil => rfl
    | cons a t =>
      rw [removeBracketsF]
      rw [ncBr] at h
      by_cases ho : isOpenBr a = true
      · rw [if_pos ho]
        rw [if_pos ho] at h
        rw [closerFree_afterClose h]
        rw [ih t (closerFree_ncBr h)]
      · rw [if_neg ho]
        rw [if_neg ho] at h
        rw [ih t h]

/-- Fact: `collapseWsAux` preserves `ncBr` (it only deletes characters and
introduces spaces, which are neither openers nor closers). -/
theorem collapseWsAux_ncBr :
    ∀ (b : Bool) (l : List Char), ncBr l → ncBr (collapseWsAux b l) := by
  intro b l
  induction l generalizing b with
  | nil => intro _; trivial
  | cons a t ih =>
    intro h
    rw [collapseWsAux]
    by_cases ha : isWs a = true
    · rw [if_pos ha]
      have hncT : ncBr t := ncBr_tail h
      by_cases hb : b = true
      · subst hb
        rw [if_pos rfl]
        exact ih true hncT
      · rw [eq_false_of_ne_true hb, if_neg (by simp)]
        rw [ncBr, if_neg (by decide)]
        exact ih true hncT
    · rw [if_neg ha]
      rw [ncBr] at h ⊢
      by_cases ho : isOpenBr a = true
      · rw [if_pos ho] at h ⊢
        intro c hc
        rcases collapseWsAux_mem false t hc with h' | h'
        · exact h c h'
        · subst h'
          decide
      · rw [if_neg ho] at h ⊢
        exact ih false h

/-- Fact: `collapseWsAux` is the identity on whitespace-normal input: all
whitespace is plain spaces and no two are adjacent (and, for the
in-run flag, the head is not whitespace). -/
theorem collapseWsAux_id :
    ∀ (l : List Char), allWsSpace l → noAdjWs l →
      collapseWsAux false l = l ∧
        (headNotWs l → collapseWsAux true l = l) := by
  intro l
  induction l with
  | nil => exact fun _ _ => ⟨rfl, fun _ => rfl⟩
  | cons a t ih =>
    intro hall hchain
    have hallT : allWsSpace t :=
      fun c hc => hall c (List.mem_cons_of_mem a hc)
    have hchainT : noAdjWs t := hchain.tail
    obtain ⟨ih1, ih2⟩ := ih hallT hchainT
    constructor
    · rw [collapseWsAux]
      by_cases ha : isWs a = true
      · rw [if_pos ha, if_neg (by simp)]
        have haSp : a = ' ' := hall a (List.mem_cons_self a t) ha
        have hheadT : headNotWs t := by
          intro c hc
          have hrel := (List.chain'_cons'.1 hchain).1 c hc
          by_cases hwc : isWs c = true
          · exact absurd ⟨ha, hwc⟩ hrel
          · simpa using hwc
        rw [ih2 hheadT, haSp]
      · rw [if_neg ha, ih1]
    · intro hhead
      have ha : isWs a = false := hhead a rfl
      rw [collapseWsAux, if_neg (by simp [ha]), ih1]

/-- Fact: `collapseWs` is the identity on whitespace-normal input. -/
theorem collapseWs_id {l : List Char} (h1 : allWsSpace l)
    (h2 : noAdjWs l) : collapseWs l = l :=
  (collapseWsAux_id l h1 h2).1

/-- Fact: `removeKeywordsF` output is a sublist of the input. -/
theorem removeKeywordsF_sublist :
    ∀ (f : Nat) (l : List Char), List.Sublist (removeKeywordsF f l) l := by
  intro f
  induction f with
  | zero => intro l; exact List.Sublist.refl l
  | succ f ih =>
    intro l
    cases l with
    | nil => exact List.Sublist.refl []
    | cons a t =>
      rw [removeKeywordsF]
      cases hm : matchKw (a :: t) with
      | some n => exact (ih ((a :: t).drop n)).trans (List.drop_sublist n (a :: t))
      | none => exact List.Sublist.cons₂ a (ih t)

/-- Fact: `collapseWs2F` output characters come from the input or are spaces. -/
theorem collapseWs2F_mem {c : Char} :
    ∀ (f : Nat) (l : List Char), c ∈ collapseWs2F f l → c ∈ l ∨ c = ' ' := by
  intro f
  induction f with
  | zero => intro l h; exact Or.inl h
  | succ f ih =>
    intro l h
    match l with
    | [] => cases h
    | [a] => exact Or.inl h
    | a :: b :: t =>
      rw [collapseWs2F] at h
      by_cases hw : (isWs a && isWs b) = true
      · rw [if_pos hw] at h
        rcases List.mem_cons.1 h with h' | h'
        · exact Or.inr h'
        · rcases ih ((b :: t).dropWhile isWs) h' with h'' | h''
          · exact Or.inl (List.mem_cons_of_mem a
              ((dropWhile_isSuffix isWs (b :: t)).sublist.subset h''))
          · exact Or.inr h''
      · rw [if_neg hw] at h
        rcases List.mem_cons.1 h with h' | h'
        · exact Or.inl (h' ▸ List.mem_cons_self a (b :: t))
        · rcases ih (b :: t) h' with h'' | h''
          · exact Or.inl (List.mem_cons_of_mem a h'')
          · exact Or.inr h''

/-- Fact: `collapseWs2F` of a non-empty list is non-empty. -/
theorem collapseWs2F_ne_nil :
    ∀ (f : Nat) (l : List Char), l ≠ [] → collapseWs2F f l ≠ [] := by
  intro f l hne
  match f, l with
  | 0, l => exact hne
  | _ + 1, [] => exact absurd rfl hne
  | _ + 1, [a] => simp [collapseWs2F]
  | f + 1, a :: b :: t =>
    rw [collapseWs2F]
    by_cases hw : (isWs a && isWs b) = true
    · rw [if_pos hw]; simp
    · rw [if_neg hw]; simp

/-- Fact: `collapseWs2F` preserves a non-whitespace head. -/
theorem collapseWs2F_head (f : Nat) (l : List Char) (c : Char)
    (h : l.head? = some c) (hc : isWs c = false) :
    (collapseWs2F f l).head? = some c := by
  match f, l with
  | 0, l => exact h
  | _ + 1, [] => cases h
  | _ + 1, [a] => exact h
  | f + 1, a :: b :: t =>
    obtain rfl : a = c := by simpa using h
    rw [collapseWs2F, if_neg (by simp [hc])]
    rfl

/-- Fact: `collapseWs2F` preserves a non-whitespace last element. -/
theorem collapseWs2F_getLast :
    ∀ (f : Nat) (l : List Char) (c : Char), l.getLast? = some c →
      isWs c = false → (collapseWs2F f l).getLast? = some c := by
  intro f
  induction f with
  | zero => intro l c h _; exact h
  | succ f ih =>
    intro l c h hc
    match l with
    | [] => cases h
    | [a] => exact h
    | a :: b :: t =>
      rw [List.getLast?_cons_cons] at h
      rw [collapseWs2F]
      by_cases hw : (isWs a && isWs b) = true
      · rw [if_pos hw]
        have hlast : c ∈ (b :: t).getLast? := by rw [h]; rfl
        have hdne : (b :: t).dropWhile isWs ≠ [] := by
          intro hnil
          have hall := List.dropWhile_eq_nil_iff.1 hnil
          have hmem := getLast?_mem_self h
          have := hall c hmem
          rw [this] at hc
          cases hc
        have hdl : ((b :: t).dropWhile isWs).getLast? = some c := by
          rw [IsSuffix_getLast_eq (dropWhile_isSuffix isWs (b :: t)) hdne]
          exact h
        have hrec := ih ((b :: t).dropWhile isWs) c hdl hc
        have hrne : collapseWs2F f ((b :: t).dropWhile isWs) ≠ [] :=
          collapseWs2F_ne_nil f _ hdne
        cases hr : collapseWs2F f ((b :: t).dropWhile isWs) with
        | nil => exact absurd hr hrne
        | cons x xs =>
          rw [hr] at hrec
          rw [List.getLast?_cons_cons]
          exact hrec
      · rw [if_neg hw]
        have hrec := ih (b :: t) c h hc
        have hrne : collapseWs2F f (b :: t) ≠ [] :=
          collapseWs2F_ne_nil f _ (by simp)
        cases hr : collapseWs2F f (b :: t) with
        | nil => exact absurd hr hrne
        | cons x xs =>
          rw [hr] at hrec
          rw [List.getLast?_cons_cons]
          exact hrec

/-- Fact: `collapseWs2F` of the empty list is empty (any fuel). -/
theorem collapseWs2F_nil : ∀ f : Nat, collapseWs2F f [] = [] := by
  intro f
  cases f with
  | zero => rfl
  | succ f => rfl

/-- Fact: `collapseWs2F` output (with enough fuel) has no two adjacent
whitespace characters. -/
theorem collapseWs2F_chain :
    ∀ (f : Nat) (l : List Char), l.length ≤ f →
      noAdjWs (collapseWs2F f l) := by
  intro f
  induction f with
  | zero =>
    intro l hlen
    have : l = [] := List.length_eq_zero.1 (Nat.le_zero.1 hlen)
    subst this
    exact List.chain'_nil
  | succ f ih =>
    intro l hlen
    match l with
    | [] => exact List.chain'_nil
    | [a] => exact List.chain'_singleton a
    | a :: b :: t =>
      rw [collapseWs2F]
      have hlt : (b :: t).length ≤ f := by
        simpa [Nat.succ_le_succ_iff] using hlen
      by_cases hw : (isWs a && isWs b) = true
      · rw [if_pos hw]
        rw [noAdjWs, List.chain'_cons']
        constructor
        · intro y hy hcon
          have hhy : ((b :: t).dropWhile isWs).head? = some y := by
            cases hd : (b :: t).dropWhile isWs with
            | nil =>
              rw [hd, collapseWs2F_nil] at hy
              simp at hy
            | cons x xs =>
              have hx : isWs x = false := by
                have := dropWhile_head_not isWs (b :: t) x (by rw [hd]; rfl)
                exact this
              have hcx := collapseWs2F_head f (x :: xs) x rfl hx
              rw [hd, hcx] at hy
              have hyx : y = x := by
                have := hy
                simp at this
                exact this.symm
              rw [hyx]
              rfl
          have := dropWhile_head_not isWs (b :: t) y hhy
          rw [this] at hcon
          exact absurd hcon.2 (by simp)
        · exact ih _ (le_trans (dropWhile_length_le isWs (b :: t)) hlt)
      · rw [if_neg hw]
        rw [noAdjWs, List.chain'_cons']
        constructor
        · intro y hy hcon
          by_cases ha : isWs a = true
          · have hb : isWs b = false := by
              rcases Bool.and_eq_true (isWs a) (isWs b) |>.symm ▸ hw with _
              by_cases hbb : isWs b = true
              · exact absurd (by rw [ha, hbb]; rfl) hw
              · simpa using hbb
            have := collapseWs2F_head f (b :: t) b rfl hb
            rw [this] at hy
            obtain rfl : b = y := by simpa using hy
            rw [hb] at hcon
            exact absurd hcon.2 (by simp)
          · rw [eq_false_of_ne_true ha] at hcon
            exact absurd hcon.1 (by simp)
        · exact ih (b :: t) hlt

/-- Fact: `collapseWs2F` preserves `ncBr`. -/
theorem collapseWs2F_ncBr :
    ∀ (f : Nat) (l : List Char), ncBr l → ncBr (collapseWs2F f l) := by
  intro f
  induction f with
  | zero => intro l h; exact h
  | succ f ih =>
    intro l h
    match l with
    | [] => trivial
    | [a] => exact h
    | a :: b :: t =>
      rw [collapseWs2F]
      by_cases hw : (isWs a && isWs b) = true
      · rw [if_pos hw]
        rw [ncBr, if_neg (by decide)]
        exact ih _ (ncBr_sublist
          ((dropWhile_isSuffix isWs (b :: t)).sublist) (ncBr_tail h))
      · rw [if_neg hw]
        rw [ncBr] at h ⊢
        by_cases ho : isOpenBr a = true
        · rw [if_pos ho] at h ⊢
          intro c hc
          rcases collapseWs2F_mem f (b :: t) hc with h' | h'
          · exact h c h'
          · subst h'; decide
        · rw [if_neg ho] at h ⊢
          exact ih (b :: t) h

/-- Fact: `collapseWs2F` is the identity when no two whitespace characters are
adjacent (any fuel). -/
theorem collapseWs2F_id :
    ∀ (f : Nat) (l : List Char), noAdjWs l → collapseWs2F f l = l := by
  intro f
  induction f with
  | zero => intro l _; rfl
  | succ f ih =>
    intro l h
    match l with
    | [] => rfl
    | [a] => rfl
    | a :: b :: t =>
      have hrel := (List.chain'_cons.1 h).1
      rw [collapseWs2F, if_neg ?_]
      · rw [ih (b :: t) h.tail]
      · intro hw
        rcases Bool.and_eq_true_iff.1 hw with ⟨h1, h2⟩
        exact hrel ⟨h1, h2⟩

/-- Fact: `allWsSpace` transfers along `∈ · ∨ = ' '` maps. -/
theorem allWsSpace_of_memUp {l' l : List Char}
    (hm : ∀ c ∈ l', c ∈ l ∨ c = ' ') (h : allWsSpace l) : allWsSpace l' := by
  intro c hc hw
  rcases hm c hc with h' | h'
  · exact h c h' hw
  · exact h'

/-- Fact: `noQuote` transfers along `∈ · ∨ = ' '` maps. -/
theorem noQuote_of_memUp {l' l : List Char}
    (hm : ∀ c ∈ l', c ∈ l ∨ c = ' ') (h : noQuote l) : noQuote l' := by
  intro c hc
  rcases hm c hc with h' | h'
  · exact h c h'
  · subst h'
    decide

/-- The head of the stage-8 result is not a separator character, given
that its input has only plain-space whitespace and a non-separator head. -/
theorem stage8_headNotSep (S : List Char) (hSa : allWsSpace S)
    (hS0 : headNotSep S) : headNotSep (trimWs (collapseWs2 S)) := by
  intro c hc
  cases S with
  | nil =>
    have : (trimWs (collapseWs2 [])).head? = none := rfl
    rw [this] at hc
    cases hc
  | cons s0 Sr =>
    have hs0sep : isSep s0 = false := hS0 s0 rfl
    have hs0ws : isWs s0 = false := by
      by_cases hw : isWs s0 = true
      · have h0 : s0 = ' ' := hSa s0 (List.mem_cons_self s0 Sr) hw
        rw [h0] at hs0sep
        exact absurd hs0sep (by decide)
      · simpa using hw
    have hMh : (collapseWs2 (s0 :: Sr)).head? = some s0 :=
      collapseWs2F_head _ _ s0 rfl hs0ws
    have hdw : (collapseWs2 (s0 :: Sr)).dropWhile isWs =
        collapseWs2 (s0 :: Sr) := by
      apply dropWhile_id_of_head
      intro d hdd
      rw [hMh] at hdd
      obtain rfl : s0 = d := Option.some.inj hdd
      exact hs0ws
    have hTr : trimWs (collapseWs2 (s0 :: Sr)) =
        (collapseWs2 (s0 :: Sr)).rdropWhile isWs := by
      rw [trimWs, hdw]
    rw [hTr] at hc
    have hne : (collapseWs2 (s0 :: Sr)).rdropWhile isWs ≠ [] := by
      intro h0
      rw [h0] at hc
      cases hc
    have heq := IsPrefix_head_eq
      (rdropWhile_isPrefix isWs (collapseWs2 (s0 :: Sr))) hne
    rw [heq, hMh] at hc
    obtain rfl : s0 = c := Option.some.inj hc
    exact hs0sep

/-- The last element of the stage-8 result is not a separator character,
given that its input has only plain-space whitespace and a non-separator
last element. -/
theorem stage8_lastNotSep (S : List Char) (hSa : allWsSpace S)
    (hS0 : lastNotSep S) : lastNotSep (trimWs (collapseWs2 S)) := by
  intro c hc
  cases S with
  | nil =>
    have : (trimWs (collapseWs2 [])).getLast? = none := rfl
    rw [this] at hc
    cases hc
  | cons s0 Sr =>
    cases hL : (s0 :: Sr).getLast? with
    | none => simp [List.getLast?_eq_getLast_of_ne_nil] at hL
    | some sE =>
      have hsEsep : isSep sE = false := hS0 sE hL
      have hsEws : isWs sE = false := by
        by_cases hw : isWs sE = true
        · have h0 : sE = ' ' := hSa sE (getLast?_mem_self hL) hw
          rw [h0] at hsEsep
          exact absurd hsEsep (by decide)
        · simpa using hw
      have hMl : (collapseWs2 (s0 :: Sr)).getLast? = some sE :=
        collapseWs2F_getLast _ _ sE hL hsEws
      have hDne : (collapseWs2 (s0 :: Sr)).dropWhile isWs ≠ [] := by
        intro h0
        have hall := List.dropWhile_eq_nil_iff.1 h0
        have := hall sE (getLast?_mem_self hMl)
        rw [this] at hsEws
        cases hsEws
      have hDl : ((collapseWs2 (s0 :: Sr)).dropWhile isWs).getLast? =
          some sE := by
        rw [IsSuffix_getLast_eq
          (dropWhile_isSuffix isWs (collapseWs2 (s0 :: Sr))) hDne]
        exact hMl
      have hRid : ((collapseWs2 (s0 :: Sr)).dropWhile isWs).rdropWhile isWs =
          (collapseWs2 (s0 :: Sr)).dropWhile isWs := by
        apply rdropWhile_id_of_last
        intro d hdd
        rw [hDl] at hdd
        obtain rfl : sE = d := Option.some.inj hdd
        exact hsEws
      have hTr : trimWs (collapseWs2 (s0 :: Sr)) =
          (collapseWs2 (s0 :: Sr)).dropWhile isWs := by
        rw [trimWs, hRid]
      rw [hTr, hDl] at hc
      obtain rfl : sE = c := Option.some.inj hc
      exact hsEsep

/-- Stage 3/4 invariants: after quote filtering and the first
collapse-and-trim, whitespace is normalised and no quotes remain. -/
theorem inv_stage4 (t3 : List Char) (h3q : noQuote t3) :
    allWsSpace (trimWs (collapseWs t3)) ∧ noQuote (trimWs (collapseWs t3)) := by
  constructor
  · exact fun c hc hw =>
      collapseWsAux_allWs false t3 c
        ((trimWs_isInfix (collapseWs t3)).sublist.subset hc) hw
  · exact noQuote_of_memUp
      (fun c hc =>
        collapseWsAux_mem false t3
          ((trimWs_isInfix (collapseWs t3)).sublist.subset hc))
      h3q

/-- Stage 5 invariants: bracket removal on whitespace-normal input leaves
no removable span and introduces nothing. -/
theorem inv_stage5 (t4 : List Char) (h4a : allWsSpace t4)
    (h4q : noQuote t4) :
    ncBr (removeBrackets t4) ∧ allWsSpace (removeBrackets t4) ∧
      noQuote (removeBrackets t4) := by
  have h4nl : ∀ c ∈ t4, c ≠ '\n' := by
    intro c hc hcn
    subst hcn
    have := h4a '\n' hc (by decide)
    exact absurd this (by decide)
  refine ⟨removeBracketsF_ncBr (t4.length + 1) t4 h4nl (Nat.le_succ _),
    fun c hc hw => h4a c (removeBracketsF_mem _ _ hc) hw,
    fun c hc => h4q c (removeBracketsF_mem _ _ hc)⟩

/-- Stage 6 invariants: the second collapse-trim-strip restores the
whitespace normal form and preserves `ncBr` and quote freedom. -/
theorem inv_stage6 (t5 : List Char) (h5n : ncBr t5) (h5a : allWsSpace t5)
    (h5q : noQuote t5) :
    allWsSpace (stripSep (trimWs (collapseWs t5))) ∧
      noAdjWs (stripSep (trimWs (collapseWs t5))) ∧
      ncBr (stripSep (trimWs (collapseWs t5))) ∧
      noQuote (stripSep (trimWs (collapseWs t5))) := by
  have hCa : allWsSpace (collapseWs t5) := collapseWsAux_allWs false t5
  have hCc : noAdjWs (collapseWs t5) := collapseWsAux_chain false t5
  have hCn : ncBr (collapseWs t5) := collapseWsAux_ncBr false t5 h5n
  have hCq : noQuote (collapseWs t5) :=
    noQuote_of_memUp (fun c hc => collapseWsAux_mem false t5 hc) h5q
  refine ⟨?_, ?_, ?_, ?_⟩
  · exact fun c hc hw =>
      hCa c
        ((trimWs_isInfix (collapseWs t5)).sublist.subset
          ((stripSep_isInfix (trimWs (collapseWs t5))).sublist.subset hc)) hw
  · exact chain_restrict
      (chain_restrict hCc (trimWs_isInfix (collapseWs t5)))
      (stripSep_isInfix (trimWs (collapseWs t5)))
  · exact ncBr_sublist (stripSep_isInfix (trimWs (collapseWs t5))).sublist
      (ncBr_sublist (trimWs_isInfix (collapseWs t5)).sublist hCn)
  · exact fun c hc =>
      hCq c
        ((trimWs_isInfix (collapseWs t5)).sublist.subset
          ((stripSep_isInfix (trimWs (collapseWs t5))).sublist.subset hc))

/-- Stage 7 invariants: keyword removal only deletes characters. -/
theorem inv_stage7 (t6 : List Char) (h6a : allWsSpace t6) (h6n : ncBr t6)
    (h6q : noQuote t6) :
    allWsSpace (removeKeywords t6) ∧ ncBr (removeKeywords t6) ∧
      noQuote (removeKeywords t6) := by
  have hsub : List.Sublist (removeKeywords t6) t6 :=
    removeKeywordsF_sublist (t6.length + 1) t6
  exact ⟨fun c hc hw => h6a c (hsub.subset hc) hw,
    ncBr_sublist hsub h6n,
    fun c hc => h6q c (hsub.subset hc)⟩

/-- Stage 8a invariants: the final separator strip. -/
theorem inv_stageS (t7 : List Char) (h7a : allWsSpace t7) (h7n : ncBr t7)
    (h7q : noQuote t7) :
    allWsSpace (stripSep t7) ∧ ncBr (stripSep t7) ∧
      noQuote (stripSep t7) ∧ headNotSep (stripSep t7) ∧
      lastNotSep (stripSep t7) := by
  exact ⟨fun c hc hw => h7a c ((stripSep_isInfix t7).sublist.subset hc) hw,
    ncBr_sublist (stripSep_isInfix t7).sublist h7n,
    fun c hc => h7q c ((stripSep_isInfix t7).sublist.subset hc),
    stripSep_head t7, stripSep_last t7⟩

/-- Stage 8b invariants: the final collapse and trim. -/
theorem inv_stageL (S : List Char) (hSa : allWsSpace S) (hSn : ncBr S)
    (hSq : noQuote S) (hSh : headNotSep S) (hSl : lastNotSep S) :
    allWsSpace (trimWs (collapseWs2 S)) ∧
      noAdjWs (trimWs (collapseWs2 S)) ∧
      noQuote (trimWs (collapseWs2 S)) ∧
      ncBr (trimWs (collapseWs2 S)) ∧
      headNotWs (trimWs (collapseWs2 S)) ∧
      lastNotWs (trimWs (collapseWs2 S)) ∧
      headNotSep (trimWs (collapseWs2 S)) ∧
      lastNotSep (trimWs (collapseWs2 S)) := by
  have hMa : allWsSpace (collapseWs2 S) :=
    allWsSpace_of_memUp (fun c hc => collapseWs2F_mem _ S hc) hSa
  have hMc : noAdjWs (collapseWs2 S) :=
    collapseWs2F_chain (S.length + 1) S (Nat.le_succ _)
  have hMn : ncBr (collapseWs2 S) := collapseWs2F_ncBr _ S hSn
  have hMq : noQuote (collapseWs2 S) :=
    noQuote_of_memUp (fun c hc => collapseWs2F_mem _ S hc) hSq
  refine ⟨?_, ?_, ?_, ?_, ?_, ?_, ?_, ?_⟩
  · exact fun c hc hw =>
      hMa c ((trimWs_isInfix (collapseWs2 S)).sublist.subset hc) hw
  · exact chain_restrict hMc (trimWs_isInfix (collapseWs2 S))
  · exact fun c hc =>
      hMq c ((trimWs_isInfix (collapseWs2 S)).sublist.subset hc)
  · exact ncBr_sublist (trimWs_isInfix (collapseWs2 S)).sublist hMn
  · exact trimWs_head (collapseWs2 S)
  · exact trimWs_last (collapseWs2 S)
  · exact stage8_headNotSep S hSa hSh
  · exact stage8_lastNotSep S hSa hSl

/-- The structural invariants of every `clean_title` output: whitespace is
normalised to single interior spaces, there are no quotes, no removable
bracketed span, and the ends carry neither whitespace nor separator
characters. -/
theorem cleanTitleL_inv (l : List Char) :
    allWsSpace (cleanTitleL l) ∧ noAdjWs (cleanTitleL l) ∧
      noQuote (cleanTitleL l) ∧ ncBr (cleanTitleL l) ∧
      headNotWs (cleanTitleL l) ∧ lastNotWs (cleanTitleL l) ∧
      headNotSep (cleanTitleL l) ∧ lastNotSep (cleanTitleL l) := by
  have heq : cleanTitleL l =
      trimWs (collapseWs2 (stripSep (removeKeywords (stripSep (trimWs
        (collapseWs (removeBrackets (trimWs (collapseWs ((dropBrandSuffix
        (dropPromoSuffix l)).filter (fun c => !isQuote c))))))))))) := rfl
  rw [heq]
  have h3q : noQuote ((dropBrandSuffix (dropPromoSuffix l)).filter
      (fun c => !isQuote c)) := by
    intro c hc
    have := (List.mem_filter.1 hc).2
    simpa using this
  generalize ht3 : (dropBrandSuffix (dropPromoSuffix l)).filter
    (fun c => !isQuote c) = t3
  rw [ht3] at h3q
  obtain ⟨h4a, h4q⟩ := inv_stage4 t3 h3q
  generalize ht4 : trimWs (collapseWs t3) = t4
  rw [ht4] at h4a h4q
  obtain ⟨h5n, h5a, h5q⟩ := inv_stage5 t4 h4a h4q
  generalize ht5 : removeBrackets t4 = t5
  rw [ht5] at h5n h5a h5q
  obtain ⟨h6a, h6c, h6n, h6q⟩ := inv_stage6 t5 h5n h5a h5q
  generalize ht6 : stripSep (trimWs (collapseWs t5)) = t6
  rw [ht6] at h6a h6c h6n h6q
  obtain ⟨h7a, h7n, h7q⟩ := inv_stage7 t6 h6a h6n h6q
  generalize ht7 : removeKeywords t6 = t7
  rw [ht7] at h7a h7n h7q
  obtain ⟨hSa, hSn, hSq, hSh, hSl⟩ := inv_stageS t7 h7a h7n h7q
  generalize hSg : stripSep t7 = S
  rw [hSg] at hSa hSn hSq hSh hSl
  exact inv_stageL S hSa hSn hSq hSh hSl

/-- Fact: `cleanTitleL` fixes any list satisfying the structural invariants on
which the three re-firing removal rules (trailing promotional suffix,
trailing brand suffix, anywhere-keywords) act as the identity. -/
theorem cleanTitleL_fix (L : List Char)
    (ha : allWsSpace L) (hcadj : noAdjWs L) (hq : noQuote L) (hn : ncBr L)
    (hhw : headNotWs L) (hlw : lastNotWs L) (hhs : headNotSep L)
    (hls : lastNotSep L) (h1 : dropPromoSuffix L = L)
    (h2 : dropBrandSuffix L = L) (h3 : removeKeywords L = L) :
    cleanTitleL L = L := by
  have heq : cleanTitleL L =
      trimWs (collapseWs2 (stripSep (removeKeywords (stripSep (trimWs
        (collapseWs (removeBrackets (trimWs (collapseWs ((dropBrandSuffix
        (dropPromoSuffix L)).filter (fun c => !isQuote c))))))))))) := rfl
  have hfil : L.filter (fun c => !isQuote c) = L :=
    List.filter_eq_self.2 (fun c hc => by simp [hq c hc])
  have hcol : collapseWs L = L := collapseWs_id ha hcadj
  have htrim : trimWs L = L := trimWs_id hhw hlw
  have hrb : removeBrackets L = L := removeBracketsF_id (L.length + 1) L hn
  have hss : stripSep L = L := stripSep_id hhs hls
  have hc2 : collapseWs2 L = L := collapseWs2F_id (L.length + 1) L hcadj
  rw [heq, h1, h2, hfil, hcol, htrim, hrb, hcol, htrim, hss, h3, hss, hc2,
    htrim]

/-- Fact: `tryItem` fails on every item and every search function: its first
step, `extract_artist_track`, raises `NameError`. -/
theorem tryItem_eq_error (searchFn : String → List String) (it : VideoItem) :
    tryItem searchFn it =
      Except.error (PyErr.nameError "handle_special_casese") := rfl

/-- The loop of `match_to_spotify` turns every item into its `NameError`
row and never increments the matched counter or assigns `query`. -/
theorem mts_foldl_eq (searchFn : String → List String)
    (items : List VideoItem) (rows : List MatchRow) (n : Nat) :
    items.foldl (mtsStep searchFn) (rows, n, none) =
      (rows ++ items.map nameErrorRow, n, none) := by
  induction items generalizing rows with
  | nil => simp
  | cons it rest ih =>
    have hstep : mtsStep searchFn (rows, n, none) it =
        (rows ++ [nameErrorRow it], n, none) := rfl
    rw [List.foldl_cons, hstep, ih]
    simp

/-- Fact: `match_to_spotify` on a non-empty batch returns one `NameError` row
per item, in input order, with a zero matched count. -/
theorem match_to_spotify_eq (searchFn : String → List String)
    (items : List VideoItem) (h : items ≠ []) :
    match_to_spotify searchFn items =
      Except.ok (items.map nameErrorRow, 0) := by
  unfold match_to_spotify
  rw [mts_foldl_eq]
  simp [List.length_eq_zero, h]

/-- Fact: `stripArtistBrand` only ever removes a suffix, and a removed non-empty
suffix matches one of the brand alternatives
`\s*-\s*topic | \s*vevo | \s*official` through to the end. -/
theorem stripArtistBrand_eats (l : List Char) :
    ∃ rest, l = stripArtistBrand l ++ rest ∧
      (rest = [] ∨ isBrandAlt rest = true) := by
  induction l with
  | nil => exact ⟨[], rfl, Or.inl rfl⟩
  | cons c t ih =>
    by_cases h : isBrandAlt (c :: t) = true
    · exact ⟨c :: t, by simp [stripArtistBrand, h], Or.inr h⟩
    · obtain ⟨rest, h1, h2⟩ := ih
      refine ⟨rest, ?_, h2⟩
      simp only [stripArtistBrand, h, if_false, List.cons_append]
      exact congrArg (c :: ·) h1

/-- Fact: `takeWhile (· != sep)` of `v ++ u` is `v` when `sep` avoids `v` and
`u` starts with `sep`. -/
theorem takeWhile_ne_append (sep : Char) (v u : List Char)
    (hv : sep ∉ v) (hu : u.head? = some sep) :
    (v ++ u).takeWhile (fun c => c != sep) = v := by
  induction v with
  | nil =>
    cases u with
    | nil => simp at hu
    | cons x u' =>
      obtain rfl : x = sep := by simpa using hu
      simp [List.takeWhile_cons]
  | cons c v' ih =>
    have hc : c ≠ sep := fun hcs => hv (hcs ▸ List.mem_cons_self c v')
    have hv' : sep ∉ v' := fun hm => hv (List.mem_cons_of_mem c hm)
    simp [List.takeWhile_cons, hc, ih hv']

/-- Fact: `afterLast` of a string whose prefix ends in `sep` and whose remainder
avoids `sep` returns the remainder (Python `split(sep)[-1]`). -/
theorem afterLast_append (sep : Char) (U v : List Char)
    (hU : U.reverse.head? = some sep) (hv : sep ∉ v) :
    afterLast sep (U ++ v) = v := by
  unfold afterLast
  rw [List.reverse_append,
    takeWhile_ne_append sep v.reverse U.reverse (by simpa using hv) hU,
    List.reverse_reverse]

/-!  ## Claims  -/

/-- Claim C1.  The claim states that `extract_artist_track` terminates
normally without raising on every input.  The code contradicts it: line
218 calls the undefined name `handle_special_casese`, so the function
raises `NameError` on every input, in particular on the empty string. -/
theorem C1_extract_raises_on_empty :
    extract_artist_track "" =
      Except.error (PyErr.nameError "handle_special_casese") := rfl

/-- Claim C2 (counterexample).  On the scenario title the claim asserts an
immediate special-case result `(artist=None, track="VARIOUS ARTISTS")`;
in fact `extract_artist_track` raises `NameError` and returns nothing. -/
theorem C2_cex :
    extract_artist_track "VARIOUS ARTISTS - Summer Mix 2023" =
        Except.error (PyErr.nameError "handle_special_casese") ∧
      extract_artist_track "VARIOUS ARTISTS - Summer Mix 2023" ≠
        Except.ok (none, some "VARIOUS ARTISTS") := by
  exact ⟨rfl, by simp [extract_artist_track]⟩

/-- Claim C2 (amended).  `handle_special_cases` on the scenario title
(which contains "mix" but no pipe character) yields
`(None, the whole title)` — not `(None, "VARIOUS ARTISTS")` — and
`extract_artist_track` never consults it: every call raises `NameError`
from the misspelled callee (and its guard tests the artist, not the
track, so a null-artist special case would fall through anyway). -/
theorem C2_special_case_not_used :
    handle_special_cases "VARIOUS ARTISTS - Summer Mix 2023" =
        (none, some "VARIOUS ARTISTS - Summer Mix 2023") ∧
      ∀ t : String, extract_artist_track t =
        Except.error (PyErr.nameError "handle_special_casese") := by
  exact ⟨by decide, fun _ => rfl⟩

/-- Claim C3.  The claim states the no-artist branch returns the
one-element candidate sequence `["track:<track>"]`; the code (line 277)
returns the bare STRING `track:<track>`, which the caller's
`for query in queries` loop iterates character by character. -/
theorem C3_string_not_list :
    build_spotify_query none "Song" = Sum.inl "track:Song" ∧
      queriesIter (build_spotify_query none "Song") =
        ["t", "r", "a", "c", "k", ":", "S", "o", "n", "g"] ∧
      queriesIter (build_spotify_query none "Song") ≠ ["track:Song"] := by
  refine ⟨rfl, by decide, by decide⟩

/-- Claim C4 (counterexample).  `clean_title` is not idempotent: on
`"h4kd"` the keyword pass removes `4k`, producing `"hd"`, and a second
application removes the now-trailing keyword `hd`, producing `""`. -/
theorem C4_cex :
    clean_title (clean_title "h4kd") ≠ clean_title "h4kd" := by decide

attribute [irreducible] ncBr noAdjWs

/-- Claim C4 (amended).  `clean_title` is not idempotent in general
(see the counterexample): its keyword and trailing-suffix removals can
re-fire on their own output.  It is idempotent at every input whose
cleaned form is left unchanged by the three removal rules that can
re-fire — the trailing promotional-suffix rule (line 158), the trailing
brand-suffix rule (line 165) and the anywhere-keyword rule (lines
177-178); all remaining stages always fix `clean_title` output.  -/
theorem C4_conditional_idem (x : String)
    (h1 : dropPromoSuffix (clean_title x).data = (clean_title x).data)
    (h2 : dropBrandSuffix (clean_title x).data = (clean_title x).data)
    (h3 : removeKeywords (clean_title x).data = (clean_title x).data) :
    clean_title (clean_title x) = clean_title x := by
  have e2g : ∀ y : String, clean_title y = String.mk (cleanTitleL y.data) :=
    fun y => rfl
  have hdata : (clean_title x).data = cleanTitleL x.data := by
    rw [e2g x]
  rw [hdata] at h1 h2 h3
  have hinv := cleanTitleL_inv x.data
  have hfix := cleanTitleL_fix (cleanTitleL x.data) hinv.1 hinv.2.1
    hinv.2.2.1 hinv.2.2.2.1 hinv.2.2.2.2.1 hinv.2.2.2.2.2.1
    hinv.2.2.2.2.2.2.1 hinv.2.2.2.2.2.2.2 h1 h2 h3
  rw [e2g (clean_title x), hdata, e2g x]
  exact congrArg String.mk hfix

/-- Claim C4 (witness): the spec's Scenario-1 title satisfies the three
conditions, so cleaning it twice equals cleaning it once. -/
theorem C4_witness :
    clean_title (clean_title "Artist Name - Song Title (Official Video)") =
      clean_title "Artist Name - Song Title (Official Video)" :=
  C4_conditional_idem "Artist Name - Song Title (Official Video)"
    (by decide) (by decide) (by decide)

/-- Claim C5.  The claim's scenario (search empty on the first two
candidates, a hit on the third) must yield a Matched outcome with
`queryUsed` the third candidate; in fact the extraction `NameError`
reaches the `except` branch first, so the single item is recorded as an
Error row with `query_used = "N/A"` and a zero matched count. -/
theorem C5_error_not_matched :
    match_to_spotify
        (fun q => if q = "Song" then ["spotify:track:abc123"] else [])
        [{ title := "Artist - Song", video_id := "v1",
           url := "https://youtu.be/v1", channel := "Chan", position := 1 }] =
      Except.ok
        ([{ item := { title := "Artist - Song", video_id := "v1",
                      url := "https://youtu.be/v1", channel := "Chan",
                      position := 1 },
            spotify_uri := none, spotify_url := none,
            match_status := "⚠️ (name 'handle_special_casese' is not defined)",
            query_used := "N/A" }], 0) := rfl

/-- Claim C6 (counterexample).  On the empty batch no result list is
produced at all: the summary line 354 divides by `len(video_data)` and
raises `ZeroDivisionError`. -/
theorem C6_cex :
    match_to_spotify (fun _ => []) [] =
      Except.error PyErr.zeroDivisionError := rfl

/-- Claim C6 (amended).  On every NON-empty batch, per-item failures are
isolated: every item's processing raises (`extract_artist_track`'s
`NameError`), every item is still recorded — exactly one outcome per
input item, in order — as an Error row whose `match_status` carries the
failure description and whose `query_used` is the sentinel `"N/A"`
(no search call is ever made), and the matched count stays zero. -/
theorem C6_isolation (searchFn : String → List String)
    (items : List VideoItem) (h : items ≠ []) :
    match_to_spotify searchFn items =
        Except.ok (items.map nameErrorRow, 0) ∧
      (items.map nameErrorRow).length = items.length ∧
      ∀ it ∈ items, nameErrorRow it =
        { item := it, spotify_uri := none, spotify_url := none,
          match_status := "⚠️ (name 'handle_special_casese' is not defined)",
          query_used := "N/A" } := by
  exact ⟨match_to_spotify_eq searchFn items h, by simp, fun it _ => rfl⟩

/-- Claim C6 (witness). -/
theorem C6_witness :
    match_to_spotify (fun _ => []) [sampleItem] =
        Except.ok ([sampleItem].map nameErrorRow, 0) ∧
      ([sampleItem].map nameErrorRow).length = [sampleItem].length ∧
      ∀ it ∈ [sampleItem], nameErrorRow it =
        { item := it, spotify_uri := none, spotify_url := none,
          match_status := "⚠️ (name 'handle_special_casese' is not defined)",
          query_used := "N/A" } :=
  C6_isolation (fun _ => []) [sampleItem] (by simp)

/-- Claim C7 (counterexample).  On the empty batch there are no aggregate
results: `match_to_spotify` raises `ZeroDivisionError` at the summary. -/
theorem C7_cex :
    match_to_spotify (fun _ => ["spotify:track:x"]) [] =
      Except.error PyErr.zeroDivisionError := rfl

/-- Claim C7 (amended).  On every NON-empty batch the aggregate results
exist and satisfy the claimed invariants: the matched count equals the
number of outcomes whose `spotify_uri` is present, there is exactly one
outcome per input item, and outcomes appear in input order (the `i`-th
outcome is for the `i`-th item). -/
theorem C7_invariants (searchFn : String → List String)
    (items : List VideoItem) (h : items ≠ []) :
    ∃ rows n, match_to_spotify searchFn items = Except.ok (rows, n) ∧
      n = (rows.filter (fun r => r.spotify_uri.isSome)).length ∧
      rows.length = items.length ∧
      rows.map MatchRow.item = items := by
  refine ⟨items.map nameErrorRow, 0,
    match_to_spotify_eq searchFn items h, ?_, by simp, ?_⟩
  · have hnil : (items.map nameErrorRow).filter
        (fun r => r.spotify_uri.isSome) = [] := by
      rw [List.filter_eq_nil_iff]
      intro r hr
      obtain ⟨it, -, rfl⟩ := List.mem_map.1 hr
      simp [nameErrorRow, exceptRow]
    rw [hnil]
    rfl
  · rw [List.map_map]
    have hid : MatchRow.item ∘ nameErrorRow = id := rfl
    rw [hid, List.map_id]

/-- Claim C7 (witness). -/
theorem C7_witness :
    ∃ rows n, match_to_spotify (fun _ => ["spotify:track:x"]) [sampleItem] =
        Except.ok (rows, n) ∧
      n = (rows.filter (fun r => r.spotify_uri.isSome)).length ∧
      rows.length = [sampleItem].length ∧
      rows.map MatchRow.item = [sampleItem] :=
  C7_invariants (fun _ => ["spotify:track:x"]) [sampleItem] (by simp)

/-- Claim C8.  For a present artist that is neither empty nor
"various artists" (the spec's data model uses absence, never the empty
string), `build_spotify_query` returns exactly the three candidates in
the claimed order, built from the artist with its trailing brand suffix
(`- topic`, `vevo` or `official`, case-insensitive, anchored at the end)
stripped: the artist equals the cleaned artist followed by a removed
suffix that is empty or matches a brand alternative. -/
theorem C8_three_candidates (a track : String) (h1 : a ≠ "")
    (h2 : String.mk (lowerL a.data) ≠ "various artists") :
    build_spotify_query (some a) track =
        Sum.inr
          ["artist:" ++ String.mk (stripArtistBrand a.data) ++ " track:" ++
             track,
           String.mk (stripArtistBrand a.data) ++ " " ++ track,
           track] ∧
      ∃ rest, a.data = stripArtistBrand a.data ++ rest ∧
        (rest = [] ∨ isBrandAlt rest = true) := by
  constructor
  · simp [build_spotify_query, h1, h2]
  · exact stripArtistBrand_eats a.data

/-- Claim C8 (witness): the spec's Scenario 4. -/
theorem C8_witness :
    build_spotify_query (some "The Band - Topic") "Song" =
        Sum.inr ["artist:The Band track:Song", "The Band Song", "Song"] ∧
      (build_spotify_query (some "The Band - Topic") "Song" =
          Sum.inr
            ["artist:" ++ String.mk (stripArtistBrand "The Band - Topic".data)
               ++ " track:" ++ "Song",
             String.mk (stripArtistBrand "The Band - Topic".data) ++ " " ++
               "Song",
             "Song"] ∧
        ∃ rest, "The Band - Topic".data =
            stripArtistBrand "The Band - Topic".data ++ rest ∧
          (rest = [] ∨ isBrandAlt rest = true)) :=
  ⟨by decide,
   C8_three_candidates "The Band - Topic" "Song" (by decide) (by decide)⟩

/-- Claim C9 (counterexample).  For the opaque id `a:b` the URI → URL →
URI round trip is lossy: `split(':')[-1]` keeps only the text after the
last colon. -/
theorem C9_cex :
    url_to_uri (uri_to_url "spotify:track:a:b") = some "spotify:track:b" ∧
      some "spotify:track:b" ≠ some ("spotify:track:a:b" : String) := by
  exact ⟨by decide, by decide⟩

/-- Claim C9 (amended).  For every opaque id containing neither `:` nor
`/`, the two conversions are mutually inverse: the URI maps to exactly
the browsable URL, that URL maps back to exactly the URI, and hence both
round trips are the identity (URL → URI → URL follows by composing the
second and first conjuncts). -/
theorem C9_roundtrip (id : String) (h1 : ':' ∉ id.data)
    (h2 : '/' ∉ id.data) :
    uri_to_url ("spotify:track:" ++ id) =
        "https://open.spotify.com/track/" ++ id ∧
      url_to_uri ("https://open.spotify.com/track/" ++ id) =
        some ("spotify:track:" ++ id) ∧
      url_to_uri (uri_to_url ("spotify:track:" ++ id)) =
        some ("spotify:track:" ++ id) := by
  have hu : uri_to_url ("spotify:track:" ++ id) =
      "https://open.spotify.com/track/" ++ id := by
    unfold uri_to_url
    rw [String.data_append, afterLast_append ':' _ _ (by decide) h1]
  have hb : url_to_uri ("https://open.spotify.com/track/" ++ id) =
      some ("spotify:track:" ++ id) := by
    unfold url_to_uri
    rw [String.data_append, if_pos, afterLast_append '/' _ _ (by decide) h2]
    exact isPrefixOf_true (List.prefix_append _ _)
  exact ⟨hu, hb, by rw [hu, hb]⟩

/-- Claim C9 (witness). -/
theorem C9_witness :
    uri_to_url ("spotify:track:" ++ "abc123") =
        "https://open.spotify.com/track/" ++ "abc123" ∧
      url_to_uri ("https://open.spotify.com/track/" ++ "abc123") =
        some ("spotify:track:" ++ "abc123") ∧
      url_to_uri (uri_to_url ("spotify:track:" ++ "abc123")) =
        some ("spotify:track:" ++ "abc123") :=
  C9_roundtrip "abc123" (by decide) (by decide)

/-- Claim C10.  The claim (and the spec's "case-insensitive matching
throughout") says the cover span is removed from the track.  The artist
search (line 207) is case-insensitive but the span removal (line 210)
lacks `re.IGNORECASE`: an upper-case `COVER` yields the artist yet leaves
the track unchanged.  The lower-case scenario behaves as claimed. -/
theorem C10_cover_case_mismatch :
    handle_special_cases "Jane Doe (John Smith COVER)" =
        (some "John Smith", some "Jane Doe (John Smith COVER)") ∧
      handle_special_cases "Jane Doe (John Smith cover)" =
        (some "John Smith", some "Jane Doe") := by
  exact ⟨by decide, by decide⟩

